import Mathlib

/-!
# Nodepat — verification of the text-buffer and file-encoding subsystem

Shallow embedding of the core of the Nodepat editor (`src/editor.rs`,
`src/search.rs`, `src/file_ops.rs`).

Conventions of the embedding:
* a Rust `String` is modelled at two granularities, matching how each
  source function actually works:
  - as a list of Unicode scalar values (`List Nat`, each `< 0x110000` and
    outside the surrogate range) for the encoding codec, which iterates
    over `char`s;
  - as a list of UTF-8 bytes (`List Nat`, each `< 256`) for
    `position_to_line_column`, which slices the string at raw byte indices;
* raw file bytes are `List Nat` with each element `< 256`;
* a Rust operation that can panic is modelled as returning `Option`,
  `none` standing for the panic;
* fallible operations returning `Result<_, String>` become `Except String _`
  with the constant part of the source's message strings.
-/

namespace Nodepat

/-! ## Document buffer (`src/editor.rs`) -/

/-- `EditorState` from `src/editor.rs` (the cursor line/column cache is
omitted: it is derived display state, recomputed by
`position_to_line_column`). Text snapshots are kept exactly as the source
keeps them: `Vec::push` appends at the end, `Vec::pop` removes from the
end, `Vec::remove(0)` removes the front. -/
structure EditorState where
  text : List Nat
  undo_history : List (List Nat)
  redo_history : List (List Nat)
deriving DecidableEq, Repr

/-- `EditorState::default()`: empty text, empty histories. -/
def EditorState.default : EditorState := ⟨[], [], []⟩

/-- Rust `str::is_char_boundary` on the UTF-8 byte list: true at the ends
and at any byte that is not a continuation byte (`(b as i8) >= -0x40`). -/
def is_char_boundary (bytes : List Nat) (i : Nat) : Bool :=
  match bytes.get? i with
  | none => i == bytes.length
  | some b => b < 0x80 || 0xC0 ≤ b

/-- Rust `str::rfind(char)` on a byte list: index of the last occurrence. -/
def rfind_byte (c : Nat) : List Nat → Option Nat
  | [] => none
  | b :: rest =>
    match rfind_byte c rest with
    | some i => some (i + 1)
    | none => if b == c then some 0 else none

/-- `EditorState::position_to_line_column` (`src/editor.rs:32-38`).
`&self.text[..pos.min(len)]` is a byte slice: it panics when the clamped
index is not a char boundary, modelled by `none`. Note the source computes
`column` from the raw `pos`, not the clamped one. -/
def EditorState.position_to_line_column (s : EditorState) (pos : Nat) :
    Option (Nat × Nat) :=
  if is_char_boundary s.text (min pos s.text.length) then
    let text_before := s.text.take (min pos s.text.length)
    let line := (text_before.filter (fun b => b == 10)).length + 1
    let last_newline := (rfind_byte 10 text_before).elim 0 (· + 1)
    let column := pos - last_newline + 1
    some (line, column)
  else
    none

/-- `EditorState::save_undo_state` (`src/editor.rs:41-49`): push the
current text, evict the oldest entry when over 100, clear redo history. -/
def EditorState.save_undo_state (s : EditorState) : EditorState :=
  let uh := s.undo_history ++ [s.text]
  { s with
    undo_history := if uh.length > 100 then uh.tail else uh
    redo_history := [] }

/-- `EditorState::undo` (`src/editor.rs:52-60`): pop the last snapshot,
swap it with the current text, push the replaced text onto redo history. -/
def EditorState.undo (s : EditorState) : Bool × EditorState :=
  match s.undo_history.getLast? with
  | some previous =>
      (true, { s with
        text := previous
        undo_history := s.undo_history.dropLast
        redo_history := s.redo_history ++ [s.text] })
  | none => (false, s)

/-- `EditorState::redo` (`src/editor.rs:63-71`): symmetric to `undo`. -/
def EditorState.redo (s : EditorState) : Bool × EditorState :=
  match s.redo_history.getLast? with
  | some next =>
      (true, { s with
        text := next
        undo_history := s.undo_history ++ [s.text]
        redo_history := s.redo_history.dropLast })
  | none => (false, s)

/-- A text mutation through the editor widget (`egui::TextEdit` binds
`&mut app.editor_state.text`): it changes only the text. -/
def EditorState.set_text (s : EditorState) (t : List Nat) : EditorState :=
  { s with text := t }

/-- States reachable through the public interface: the default state,
closed under text mutation, `save_undo_state`, `undo` and `redo` (the
search/replace operations mutate the editor state only through these). -/
inductive Reachable : EditorState → Prop
  | init : Reachable EditorState.default
  | set_text {s} (t : List Nat) : Reachable s → Reachable (s.set_text t)
  | save {s} : Reachable s → Reachable s.save_undo_state
  | undo {s} : Reachable s → Reachable s.undo.2
  | redo {s} : Reachable s → Reachable s.redo.2

/-! ## Undo/redo lemmas -/

/-- After `save_undo_state`'s capped push, the last history entry is the
pushed text, whether or not the oldest entry was evicted. -/
theorem getLast?_capped_push (uh : List (List Nat)) (x : List Nat) :
    (if (uh ++ [x]).length > 100 then (uh ++ [x]).tail else (uh ++ [x])).getLast?
      = some x := by
  split
  · cases uh with
    | nil => simp_all
    | cons y ys => simp
  · exact List.getLast?_concat uh

/-- Along every reachable state, the two history stacks together hold at
most 100 snapshots: `save_undo_state` caps and clears, while `undo` and
`redo` move one snapshot between the stacks. -/
theorem reachable_histories_bound {s : EditorState} (h : Reachable s) :
    s.undo_history.length + s.redo_history.length ≤ 100 := by
  induction h with
  | init => simp [EditorState.default]
  | set_text t _ ih => simp only [EditorState.set_text]; exact ih
  | save _ ih =>
      simp only [EditorState.save_undo_state]
      split
      · simp only [List.length_tail, List.length_append, List.length_nil,
          List.length_cons]
        omega
      · rename_i hle
        simp only [not_lt, List.length_append, List.length_cons,
          List.length_nil] at hle
        simp only [List.length_append, List.length_cons, List.length_nil]
        omega
  | @undo s' _ ih =>
      rcases hgl : s'.undo_history.getLast? with _ | prev
      · simp only [EditorState.undo, hgl]
        exact ih
      · have hlen : 1 ≤ s'.undo_history.length := by
          obtain ⟨l', hl'⟩ := List.getLast?_eq_some_iff.mp hgl
          rw [hl']
          simp
        simp only [EditorState.undo, hgl, List.length_dropLast,
          List.length_append, List.length_cons, List.length_nil]
        omega
  | @redo s' _ ih =>
      rcases hgl : s'.redo_history.getLast? with _ | next
      · simp only [EditorState.redo, hgl]
        exact ih
      · have hlen : 1 ≤ s'.redo_history.length := by
          obtain ⟨l', hl'⟩ := List.getLast?_eq_some_iff.mp hgl
          rw [hl']
          simp
        simp only [EditorState.redo, hgl, List.length_dropLast,
          List.length_append, List.length_cons, List.length_nil]
        omega

/-- C3: for every editor state, after `save_undo_state` followed by any
mutation of the text, `undo` returns true and restores the exact text that
was current at the checkpoint, and a subsequent `redo` returns true and
restores the exact post-mutation text: undo and redo are an inverse pair
on the text. -/
theorem undo_redo_inverse_pair (s : EditorState) (t' : List Nat) :
    ((s.save_undo_state.set_text t').undo.1 = true ∧
      (s.save_undo_state.set_text t').undo.2.text = s.text) ∧
    ((s.save_undo_state.set_text t').undo.2.redo.1 = true ∧
      (s.save_undo_state.set_text t').undo.2.redo.2.text = t') := by
  have hpop := getLast?_capped_push s.undo_history s.text
  simp only [EditorState.save_undo_state, EditorState.set_text,
    EditorState.undo, hpop, List.nil_append, EditorState.redo,
    List.getLast?_concat]
  simp

/-- C4: every reachable editor state satisfies `undo_history.length ≤ 100`;
the bound is preserved by `save_undo_state` and by `redo` (which pushes
onto `undo_history` with no explicit check), and pushing onto a full
history of 100 entries evicts the oldest entry, leaving exactly the most
recent 100 snapshots in order. -/
theorem undo_history_bounded (s : EditorState) (h : Reachable s) :
    s.undo_history.length ≤ 100 ∧
    s.save_undo_state.undo_history.length ≤ 100 ∧
    s.redo.2.undo_history.length ≤ 100 ∧
    (s.undo_history.length = 100 →
      s.save_undo_state.undo_history = s.undo_history.tail ++ [s.text] ∧
      s.save_undo_state.undo_history.length = 100) := by
  have hb := reachable_histories_bound h
  refine ⟨by omega, ?_, ?_, ?_⟩
  · simp only [EditorState.save_undo_state]
    split
    · simp only [List.length_tail, List.length_append, List.length_cons,
        List.length_nil]
      omega
    · rename_i hle
      simp only [not_lt, List.length_append, List.length_cons,
        List.length_nil] at hle
      simp only [List.length_append, List.length_cons, List.length_nil]
      omega
  · rcases hgl : s.redo_history.getLast? with _ | next
    · simp only [EditorState.redo, hgl]
      omega
    · obtain ⟨l', hl'⟩ := List.getLast?_eq_some_iff.mp hgl
      simp only [EditorState.redo, hgl, List.length_append, List.length_cons,
        List.length_nil]
      rw [hl'] at hb
      simp only [List.length_append, List.length_cons, List.length_nil] at hb
      omega
  · intro h100
    have hcond : (s.undo_history ++ [s.text]).length > 100 := by
      simp only [List.length_append, List.length_cons, List.length_nil, h100]
      omega
    have htail : (s.undo_history ++ [s.text]).tail
        = s.undo_history.tail ++ [s.text] := by
      cases hu : s.undo_history with
      | nil => rw [hu] at h100; simp at h100
      | cons y ys => simp
    have hsave : s.save_undo_state.undo_history
        = s.undo_history.tail ++ [s.text] := by
      simp only [EditorState.save_undo_state, if_pos hcond, htail]
    refine ⟨hsave, ?_⟩
    rw [hsave]
    simp only [List.length_append, List.length_cons, List.length_nil,
      List.length_tail, h100]

/-- Witness for C4 at the default (initial) state. -/
theorem undo_history_bounded_witness :
    EditorState.default.undo_history.length ≤ 100 ∧
    EditorState.default.save_undo_state.undo_history.length ≤ 100 ∧
    EditorState.default.redo.2.undo_history.length ≤ 100 ∧
    (EditorState.default.undo_history.length = 100 →
      EditorState.default.save_undo_state.undo_history
        = EditorState.default.undo_history.tail ++ [EditorState.default.text] ∧
      EditorState.default.save_undo_state.undo_history.length = 100) :=
  undo_history_bounded EditorState.default Reachable.init

/-! ## Line/column computation -/

/-- `rfind_byte` only returns indices inside the list. -/
theorem rfind_byte_lt_length {c : Nat} : ∀ {l : List Nat} {i : Nat},
    rfind_byte c l = some i → i < l.length := by
  intro l
  induction l with
  | nil => intro i h; simp [rfind_byte] at h
  | cons b rest ih =>
      intro i h
      rw [rfind_byte] at h
      cases hr : rfind_byte c rest with
      | some j =>
          rw [hr] at h
          simp only [Option.some.injEq] at h
          have hj := ih hr
          simp only [List.length_cons]
          omega
      | none =>
          rw [hr] at h
          by_cases hbc : (b == c) = true
          · simp only [if_pos hbc, Option.some.injEq] at h
            simp only [List.length_cons]
            omega
          · simp only [if_neg hbc] at h
            exact Option.noConfusion h

/-- Spec-side line number ("one plus the number of newlines strictly
before the offset", the offset clamped to the text length). -/
def spec_line (text : List Nat) (pos : Nat) : Nat :=
  (text.take (min pos text.length)).countP (fun b => b == 10) + 1

/-- Spec-side start of the current line: one past the most recent newline
before the clamped offset, or 0 if there is none. -/
def spec_newline_base (text : List Nat) (pos : Nat) : Nat :=
  (rfind_byte 10 (text.take (min pos text.length))).elim 0 (· + 1)

/-- Spec-side column ("one plus the distance from the most recent newline
(or text start)", computed at the clamped offset). -/
def spec_column (text : List Nat) (pos : Nat) : Nat :=
  min pos text.length - spec_newline_base text pos + 1

/-- C8 (amended): whenever the clamped offset is a char boundary,
`position_to_line_column` returns the spec's 1-indexed line, but its
column exceeds the spec's column of the clamped position by exactly the
amount the raw offset overshoots the text length — the source clamps the
offset for the line computation only and uses the raw offset for the
column. For offsets within the text the claim holds as stated. -/
theorem position_to_line_column_spec (s : EditorState) (pos : Nat)
    (h : is_char_boundary s.text (min pos s.text.length) = true) :
    s.position_to_line_column pos
      = some (spec_line s.text pos,
              spec_column s.text pos + (pos - min pos s.text.length)) := by
  have hple : min pos s.text.length ≤ pos := Nat.min_le_left _ _
  have hplen : min pos s.text.length ≤ s.text.length := Nat.min_le_right _ _
  have hbase : spec_newline_base s.text pos ≤ min pos s.text.length := by
    rw [spec_newline_base]
    cases hr : rfind_byte 10 (s.text.take (min pos s.text.length)) with
    | none => simp
    | some i =>
        have hi := rfind_byte_lt_length hr
        rw [List.length_take] at hi
        simp only [Option.elim]
        omega
  simp only [EditorState.position_to_line_column, if_pos h,
    Option.some.injEq, Prod.mk.injEq]
  constructor
  · rw [spec_line, List.countP_eq_length_filter]
  · rw [spec_column]
    rw [spec_newline_base] at hbase ⊢
    omega

/-- Witness for C8's amended theorem at the spec's own example: text
`"ab\ncd"`, offset 4, giving line 2, column 2. -/
theorem position_to_line_column_spec_witness :
    (is_char_boundary [97, 98, 10, 99, 100]
        (min 4 ([97, 98, 10, 99, 100] : List Nat).length) = true) ∧
    (EditorState.mk [97, 98, 10, 99, 100] [] []).position_to_line_column 4
      = some (spec_line [97, 98, 10, 99, 100] 4,
              spec_column [97, 98, 10, 99, 100] 4
                + (4 - min 4 ([97, 98, 10, 99, 100] : List Nat).length)) :=
  ⟨by decide, position_to_line_column_spec ⟨[97, 98, 10, 99, 100], [], []⟩ 4
    (by decide)⟩

/-- C8 counterexample: on text `"ab\ncd"` at offset 10 (beyond the text
length 5) the source returns (2, 8) — the column keeps growing with the
raw offset — while the claim's clamped end-of-text position is (2, 3). -/
theorem position_to_line_column_not_clamped :
    (EditorState.mk [97, 98, 10, 99, 100] [] []).position_to_line_column 10
      = some (2, 8) ∧
    (EditorState.mk [97, 98, 10, 99, 100] [] []).position_to_line_column 10
      ≠ some (2, 3) := by
  decide

/-- C2: `position_to_line_column` on the text `"é"` (UTF-8 bytes
`C3 A9`) at offset 1 hits a Rust panic — `&self.text[..1]` slices at a
byte index that is not a char boundary — modelled here by `none`. The
offset 1 is a bounded input (and the one egui reports for a cursor after
the character), so the no-panic claim fails on the code. -/
theorem position_to_line_column_panic_input :
    (EditorState.mk [0xC3, 0xA9] [] []).position_to_line_column 1 = none := by
  decide

/-! ## Search engine (`src/search.rs`)

Search operates on the text as a sequence of scalar values; offsets are
indices into that sequence. `str::to_lowercase` is modelled on the ASCII
range, where it agrees with the source (one byte in, one byte out); the
claims below either fix `case_sensitive = true` or hold for any folding. -/

/-- ASCII-range model of the per-character lowercase mapping used by
`str::to_lowercase`. -/
def ascii_to_lower (b : Nat) : Nat := if 65 ≤ b ∧ b ≤ 90 then b + 32 else b

/-- `str::to_lowercase`, restricted to the ASCII range. -/
def to_lowercase (l : List Nat) : List Nat := l.map ascii_to_lower

/-- Rust `str::find(&str)`: index of the first occurrence of `needle`,
`some 0` on an empty needle. -/
def find_sub (needle : List Nat) : List Nat → Option Nat
  | [] => if needle.isPrefixOf ([] : List Nat) then some 0 else none
  | b :: rest =>
    if needle.isPrefixOf (b :: rest) then some 0
    else (find_sub needle rest).map (· + 1)

/-- Rust `str::rfind(&str)`: index of the last occurrence of `needle`. -/
def rfind_sub (needle : List Nat) : List Nat → Option Nat
  | [] => if needle.isPrefixOf ([] : List Nat) then some 0 else none
  | b :: rest =>
    match rfind_sub needle rest with
    | some i => some (i + 1)
    | none => if needle.isPrefixOf (b :: rest) then some 0 else none

/-- Rust `str::contains(&str)`. -/
def contains_sub (l needle : List Nat) : Bool := (find_sub needle l).isSome

/-- `SearchState` from `src/search.rs`. -/
structure SearchState where
  find_text : List Nat
  replace_text : List Nat
  case_sensitive : Bool
  search_down : Bool
  search_position : Nat
deriving DecidableEq, Repr

/-- `find_next` (`src/search.rs:32-84`). Returns the source's boolean
result together with the updated search state; `none` models the panic of
`text[start_pos..]` when the stored position exceeds the text length.
Note the source computes `start_pos = 0` whenever `search_down` is false. -/
def find_next (text0 : List Nat) (st : SearchState) :
    Option (Bool × SearchState) :=
  if st.find_text = [] then some (false, st)
  else
    let text := if st.case_sensitive then text0 else to_lowercase text0
    let search_text :=
      if st.case_sensitive then st.find_text else to_lowercase st.find_text
    let start_pos := if st.search_down then st.search_position else 0
    if start_pos > text.length then none
    else if st.search_down then
      match find_sub search_text (text.drop start_pos) with
      | some pos =>
          some (true, { st with
            search_position := start_pos + pos + search_text.length })
      | none =>
          match find_sub search_text (text.take start_pos) with
          | some pos =>
              some (true, { st with
                search_position := pos + search_text.length })
          | none => some (false, st)
    else
      match rfind_sub search_text (text.take start_pos) with
      | some pos => some (true, { st with search_position := pos })
      | none =>
          match rfind_sub search_text (text.drop start_pos) with
          | some pos =>
              some (true, { st with search_position := start_pos + pos })
          | none => some (false, st)

/-- Rust `String::replacen(pat, to, 1)`: replace the first occurrence of
`search` (if any) by `repl`. -/
def replacen1 (l search repl : List Nat) : List Nat :=
  match find_sub search l with
  | some i => l.take i ++ repl ++ l.drop (i + search.length)
  | none => l

/-- The case-sensitive loop of `replace_all` (`src/search.rs:141-145`):
`while text.contains(search) { text = text.replacen(search, repl, 1); count += 1 }`.
The source loop is unbounded; `fuel` bounds the number of iterations the
embedding may take, and `none` means the loop is still running after
`fuel` iterations — the loop diverges iff the result is `none` for every
fuel. (The single undo checkpoint the source takes before the loop is
`EditorState.save_undo_state`, treated with the buffer operations.) -/
def replace_all_cs (search repl : List Nat) : Nat → List Nat → Option (List Nat × Nat)
  | 0, text => if contains_sub text search then none else some (text, 0)
  | fuel + 1, text =>
    if contains_sub text search then
      match replace_all_cs search repl fuel (replacen1 text search repl) with
      | some (t, c) => some (t, c + 1)
      | none => none
    else some (text, 0)

/-! ## Search lemmas -/

/-- A non-empty needle never occurs in the empty haystack. -/
theorem rfind_sub_nil_of_ne {needle : List Nat} (h : needle ≠ []) :
    rfind_sub needle [] = none := by
  cases needle with
  | nil => exact absurd rfl h
  | cons a as => rfl

/-- C6 (amended): for every text, non-empty pattern and backward cursor,
`find_next` ignores `cursor.position` entirely — the source sets
`start_pos = 0` for the backward direction, so the primary window
`text[..start_pos]` is empty and the wrap window is the whole text. The
call returns true and sets the position to the start of the rightmost
match in the entire (case-folded) text when one exists, and returns false
leaving the state unchanged otherwise. -/
theorem find_next_backward (text0 : List Nat) (st : SearchState)
    (hdir : st.search_down = false) (hne : st.find_text ≠ []) :
    find_next text0 st = some
      (match rfind_sub
          (if st.case_sensitive then st.find_text else to_lowercase st.find_text)
          (if st.case_sensitive then text0 else to_lowercase text0) with
        | some p => (true, { st with search_position := p })
        | none => (false, st)) := by
  have hsne : (if st.case_sensitive then st.find_text
      else to_lowercase st.find_text) ≠ [] := by
    split
    · exact hne
    · simp only [to_lowercase, ne_eq, List.map_eq_nil_iff]
      exact hne
  rw [find_next, if_neg hne]
  simp only [hdir, if_false, Bool.false_eq_true]
  rw [if_neg (by omega)]
  simp only [List.take_zero, List.drop_zero,
    rfind_sub_nil_of_ne hsne, Nat.zero_add]
  cases hrf : rfind_sub
      (if st.case_sensitive then st.find_text else to_lowercase st.find_text)
      (if st.case_sensitive then text0 else to_lowercase text0) with
  | some p => simp [hrf]
  | none => simp [hrf]

/-- Witness for C6's amended theorem: backward search for `"a"` in
`"aba"` from position 1 finds the rightmost match of the whole text, at
index 2. -/
theorem find_next_backward_witness :
    find_next [97, 98, 97] ⟨[97], [], true, false, 1⟩ = some
      (match rfind_sub
          (if (⟨[97], [], true, false, 1⟩ : SearchState).case_sensitive
            then (⟨[97], [], true, false, 1⟩ : SearchState).find_text
            else to_lowercase (⟨[97], [], true, false, 1⟩ : SearchState).find_text)
          (if (⟨[97], [], true, false, 1⟩ : SearchState).case_sensitive
            then [97, 98, 97] else to_lowercase [97, 98, 97]) with
        | some p => (true, { (⟨[97], [], true, false, 1⟩ : SearchState) with
            search_position := p })
        | none => (false, (⟨[97], [], true, false, 1⟩ : SearchState))) :=
  find_next_backward [97, 98, 97] ⟨[97], [], true, false, 1⟩ (by decide)
    (by decide)

/-- C6 counterexample: text `"aba"`, pattern `"a"`, case-sensitive,
backward, cursor at 2. The claim requires the rightmost match strictly
before the cursor (index 0); the source instead searches `text[..0]`
(empty), wraps, and takes the rightmost match of the whole text, setting
the position to 2. -/
theorem find_next_backward_counterexample :
    find_next [97, 98, 97] ⟨[97], [], true, false, 2⟩
      = some (true, ⟨[97], [], true, false, 2⟩) ∧
    find_next [97, 98, 97] ⟨[97], [], true, false, 2⟩
      ≠ some (true, ⟨[97], [], true, false, 0⟩) := by
  decide

/-- A character of the text is found by `contains` with the singleton
pattern. -/
theorem contains_sub_single {a : Nat} {l : List Nat} (h : a ∈ l) :
    contains_sub l [a] = true := by
  induction l with
  | nil => simp at h
  | cons b rest ih =>
      rw [contains_sub, find_sub]
      by_cases hab : a = b
      · rw [if_pos]
        · rfl
        · subst hab
          simp [List.isPrefixOf]
      · have hr : a ∈ rest := by
          rcases List.mem_cons.mp h with h1 | h1
          · exact absurd h1 hab
          · exact h1
        have hc := ih hr
        rw [contains_sub] at hc
        split
        · rfl
        · simpa using hc

/-- Replacing the first occurrence keeps any character of the
replacement in the text. -/
theorem mem_replacen1 {l search repl : List Nat} {a : Nat}
    (hc : contains_sub l search = true) (ha : a ∈ repl) :
    a ∈ replacen1 l search repl := by
  rw [contains_sub, Option.isSome_iff_exists] at hc
  obtain ⟨i, hi⟩ := hc
  rw [replacen1, hi]
  simp [ha]

/-- With pattern `"a"` and replacement `"aa"`, every iteration of the
case-sensitive replace-all loop leaves an `'a'` in the text, so the loop
never exits, whatever the fuel. -/
theorem replace_all_cs_diverges : ∀ (fuel : Nat) (text : List Nat),
    97 ∈ text → replace_all_cs [97] [97, 97] fuel text = none := by
  intro fuel
  induction fuel with
  | zero =>
      intro text h
      rw [replace_all_cs, if_pos (contains_sub_single h)]
  | succ n ih =>
      intro text h
      rw [replace_all_cs, if_pos (contains_sub_single h),
        ih _ (mem_replacen1 (contains_sub_single h) (by simp))]

/-- C9 counterexample: on text `"a"`, pattern `"a"`, replacement `"aa"`
(case-sensitive) the source's `while contains { replacen }` loop never
terminates — no amount of fuel makes the embedded loop return — so
`replace_all` does not return a count for every text and non-empty
pattern. -/
theorem replace_all_counterexample :
    ¬ ∃ (fuel : Nat) (r : List Nat × Nat),
        replace_all_cs [97] [97, 97] fuel [97] = some r := by
  rintro ⟨fuel, r, h⟩
  rw [replace_all_cs_diverges fuel [97] (by simp)] at h
  exact Option.noConfusion h

/-- C9 (amended): whenever the case-sensitive replace-all loop does
terminate, it has replaced the first occurrence repeatedly until no
occurrence of the pattern remains, returning the iteration count — but
termination is not guaranteed for every input. On the spec's example,
text `"Hello World Hello"`, pattern `"Hello"`, replacement `"Hi"`, it
terminates with count 2 and final text `"Hi World Hi"`. -/
theorem replace_all_cs_spec :
    (∀ (search repl text result : List Nat) (fuel count : Nat),
        replace_all_cs search repl fuel text = some (result, count) →
        contains_sub result search = false) ∧
    replace_all_cs [72, 101, 108, 108, 111] [72, 105] 2
        [72, 101, 108, 108, 111, 32, 87, 111, 114, 108, 100, 32,
          72, 101, 108, 108, 111]
      = some ([72, 105, 32, 87, 111, 114, 108, 100, 32, 72, 105], 2) := by
  constructor
  · intro search repl text result fuel count
    induction fuel generalizing text count with
    | zero =>
        intro h
        rw [replace_all_cs] at h
        split at h
        · exact Option.noConfusion h
        · rename_i hc
          simp only [Option.some.injEq, Prod.mk.injEq] at h
          simp only [Bool.not_eq_true] at hc
          rw [← h.1]
          exact hc
    | succ n ih =>
        intro h
        rw [replace_all_cs] at h
        split at h
        · cases hrec : replace_all_cs search repl n (replacen1 text search repl) with
          | some tc =>
              rw [hrec] at h
              obtain ⟨t, c⟩ := tc
              simp only [Option.some.injEq, Prod.mk.injEq] at h
              rw [h.1] at hrec
              exact ih _ _ hrec
          | none =>
              rw [hrec] at h
              exact Option.noConfusion h
        · rename_i hc
          simp only [Option.some.injEq, Prod.mk.injEq] at h
          simp only [Bool.not_eq_true] at hc
          rw [← h.1]
          exact hc
  · decide

/-! ## Encoding codec (`src/file_ops.rs`)

Raw file bytes are `List Nat` with elements `< 256`; decoded text is a
`List Nat` of Unicode scalar values. -/

/-- A Unicode scalar value: below `0x110000` and outside the surrogate
range (what a Rust `char` can hold). -/
def ValidChar (c : Nat) : Prop := c < 0x110000 ∧ (c < 0xD800 ∨ 0xE000 ≤ c)

instance (c : Nat) : Decidable (ValidChar c) := by
  unfold ValidChar
  infer_instance

/-- A valid text: every element a Unicode scalar value. -/
def ValidText (t : List Nat) : Prop := ∀ c ∈ t, ValidChar c

instance (t : List Nat) : Decidable (ValidText t) := by
  unfold ValidText
  infer_instance

/-- `char::encode_utf16`: one code unit below `0x10000`, else a
surrogate pair. -/
def utf16_units (c : Nat) : List Nat :=
  if c < 0x10000 then [c]
  else [0xD800 + (c - 0x10000) / 0x400, 0xDC00 + (c - 0x10000) % 0x400]

/-- `encode_utf16_le` (`src/file_ops.rs:162-166`): each code unit as two
little-endian bytes. -/
def encode_utf16_le (text : List Nat) : List Nat :=
  text.flatMap (fun c => (utf16_units c).flatMap (fun u => [u % 256, u / 256 % 256]))

/-- `encode_utf16_be` (`src/file_ops.rs:175-179`). -/
def encode_utf16_be (text : List Nat) : List Nat :=
  text.flatMap (fun c => (utf16_units c).flatMap (fun u => [u / 256 % 256, u % 256]))

/-- `chunks_exact(2)` + `u16::from_le_bytes` (`src/file_ops.rs:127-130`);
like `chunks_exact`, a trailing odd byte is dropped. -/
def bytes_to_u16_le : List Nat → List Nat
  | a :: b :: rest => (a + 256 * b) :: bytes_to_u16_le rest
  | _ => []

/-- `chunks_exact(2)` + `u16::from_be_bytes` (`src/file_ops.rs:147-150`). -/
def bytes_to_u16_be : List Nat → List Nat
  | a :: b :: rest => (256 * a + b) :: bytes_to_u16_be rest
  | _ => []

/-- `String::from_utf16`: non-surrogate units pass through, a high
surrogate must be followed by a low surrogate (combined into one scalar),
anything else is invalid. -/
def utf16_decode : List Nat → Option (List Nat)
  | [] => some []
  | u :: rest =>
    if u < 0xD800 ∨ 0xE000 ≤ u then (utf16_decode rest).map (u :: ·)
    else if u < 0xDC00 then
      match rest with
      | v :: rest2 =>
        if 0xDC00 ≤ v ∧ v < 0xE000 then
          (utf16_decode rest2).map
            ((0x10000 + (u - 0xD800) * 0x400 + (v - 0xDC00)) :: ·)
        else none
      | [] => none
    else none

/-- `decode_utf16_le` (`src/file_ops.rs:122-133`). The source formats the
`FromUtf16Error` into its message; the embedding keeps a fixed text for
that case. -/
def decode_utf16_le (bytes : List Nat) : Except String (List Nat) :=
  if bytes.length % 2 ≠ 0 then .error "Invalid UTF-16 LE: odd number of bytes"
  else
    match utf16_decode (bytes_to_u16_le bytes) with
    | some t => .ok t
    | none => .error "Invalid UTF-16 LE: invalid sequence"

/-- `decode_utf16_be` (`src/file_ops.rs:142-153`). -/
def decode_utf16_be (bytes : List Nat) : Except String (List Nat) :=
  if bytes.length % 2 ≠ 0 then .error "Invalid UTF-16 BE: odd number of bytes"
  else
    match utf16_decode (bytes_to_u16_be bytes) with
    | some t => .ok t
    | none => .error "Invalid UTF-16 BE: invalid sequence"

/-- The UTF-8 encoding of one scalar value (Rust `String::as_bytes`
per char). -/
def utf8_bytes (c : Nat) : List Nat :=
  if c < 0x80 then [c]
  else if c < 0x800 then [0xC0 + c / 64, 0x80 + c % 64]
  else if c < 0x10000 then
    [0xE0 + c / 4096, 0x80 + c / 64 % 64, 0x80 + c % 64]
  else
    [0xF0 + c / 0x40000, 0x80 + c / 4096 % 64, 0x80 + c / 64 % 64,
      0x80 + c % 64]

/-- `content.as_bytes().to_vec()`: the UTF-8 byte sequence of the text. -/
def encode_utf8 (text : List Nat) : List Nat := text.flatMap utf8_bytes

/-- One step of UTF-8 validation (the per-sequence check shared by
`String::from_utf8` and `String::from_utf8_lossy`): from a lead byte `b`
and the bytes after it, the decoded scalar and the remaining bytes, per
the UTF-8 well-formedness table — no overlong forms, no surrogates,
nothing above `U+10FFFF`, continuation bytes in `0x80..0xBF`. -/
def utf8_step (b : Nat) (rest : List Nat) : Option (Nat × List Nat) :=
  if b < 0x80 then some (b, rest)
  else if b < 0xC2 then none
  else if b < 0xE0 then
    match rest with
    | b1 :: rest1 =>
      if 0x80 ≤ b1 ∧ b1 < 0xC0 then
        some ((b - 0xC0) * 64 + (b1 - 0x80), rest1)
      else none
    | [] => none
  else if b < 0xF0 then
    match rest with
    | b1 :: b2 :: rest2 =>
      if (0x80 ≤ b1 ∧ b1 < 0xC0) ∧ (0x80 ≤ b2 ∧ b2 < 0xC0)
          ∧ (b = 0xE0 → 0xA0 ≤ b1) ∧ (b = 0xED → b1 < 0xA0) then
        some ((b - 0xE0) * 4096 + (b1 - 0x80) * 64 + (b2 - 0x80), rest2)
      else none
    | _ => none
  else if b < 0xF5 then
    match rest with
    | b1 :: b2 :: b3 :: rest3 =>
      if (0x80 ≤ b1 ∧ b1 < 0xC0) ∧ (0x80 ≤ b2 ∧ b2 < 0xC0)
          ∧ (0x80 ≤ b3 ∧ b3 < 0xC0)
          ∧ (b = 0xF0 → 0x90 ≤ b1) ∧ (b = 0xF4 → b1 < 0x90) then
        some ((b - 0xF0) * 0x40000 + (b1 - 0x80) * 4096 + (b2 - 0x80) * 64
          + (b3 - 0x80), rest3)
      else none
    | _ => none
  else none

/-- A successful step consumes a non-negative number of bytes. -/
theorem utf8_step_length {b : Nat} {rest : List Nat} {c : Nat}
    {rest' : List Nat} (h : utf8_step b rest = some (c, rest')) :
    rest'.length ≤ rest.length := by
  rw [utf8_step.eq_def] at h
  split_ifs at h <;>
  · try split at h
    all_goals try split_ifs at h
    all_goals
      first
      | exact Option.noConfusion h
      | (simp only [Option.some.injEq, Prod.mk.injEq] at h
         obtain ⟨h1, h2⟩ := h
         subst h2
         try simp only [List.length_cons]
         omega)

/-- `String::from_utf8` (strict): every sequence must validate. -/
def utf8_decode : List Nat → Option (List Nat)
  | [] => some []
  | b :: rest =>
    match h : utf8_step b rest with
    | some (c, rest') => (utf8_decode rest').map (c :: ·)
    | none => none
termination_by l => l.length
decreasing_by
  have := utf8_step_length h
  simp only [List.length_cons]
  omega

/-- Where `String::from_utf8_lossy` resumes scanning after an invalid
sequence led by `b`: just past the bytes of the maximal subpart (the lead
byte plus the continuation bytes that validly matched it before the
offending byte). -/
def utf8_resync (b : Nat) (rest : List Nat) : List Nat :=
  if b < 0xE0 then rest
  else if b < 0xF0 then
    match rest with
    | b1 :: rest1 =>
      if (0x80 ≤ b1 ∧ b1 < 0xC0) ∧ (b = 0xE0 → 0xA0 ≤ b1)
          ∧ (b = 0xED → b1 < 0xA0) then rest1
      else rest
    | [] => []
  else if b < 0xF5 then
    match rest with
    | b1 :: rest1 =>
      if (0x80 ≤ b1 ∧ b1 < 0xC0) ∧ (b = 0xF0 → 0x90 ≤ b1)
          ∧ (b = 0xF4 → b1 < 0x90) then
        match rest1 with
        | b2 :: rest2 => if 0x80 ≤ b2 ∧ b2 < 0xC0 then rest2 else rest1
        | [] => []
      else rest
    | [] => []
  else rest

/-- Resuming never moves backwards. -/
theorem utf8_resync_length (b : Nat) (rest : List Nat) :
    (utf8_resync b rest).length ≤ rest.length := by
  rw [utf8_resync.eq_def]
  split_ifs <;>
  · try split
    all_goals try split_ifs
    all_goals try split
    all_goals try split_ifs
    all_goals try simp only [List.length_cons, List.length_nil]
    all_goals omega

/-- `String::from_utf8_lossy`: a valid sequence decodes, an invalid one
becomes one `U+FFFD` per maximal subpart. Total: it never fails. -/
def utf8_lossy : List Nat → List Nat
  | [] => []
  | b :: rest =>
    match h : utf8_step b rest with
    | some (c, rest') => c :: utf8_lossy rest'
    | none => 0xFFFD :: utf8_lossy (utf8_resync b rest)
termination_by l => l.length
decreasing_by
  · have := utf8_step_length h
    simp only [List.length_cons]
    omega
  · have := utf8_resync_length b rest
    simp only [List.length_cons]
    omega

/-- `decode_latin1` (`src/file_ops.rs:190-192`): `char::from(b)` maps a
byte to the scalar of the same value. -/
def decode_latin1 (bytes : List Nat) : List Nat := bytes.map (fun b => b)

/-- `encode_latin1` (`src/file_ops.rs:203-214`): a scalar at most `0xFF`
keeps its value, anything above becomes `'?'` (0x3F). -/
def encode_latin1 (text : List Nat) : List Nat :=
  text.map (fun c => if c ≤ 0xFF then c else 0x3F)

/-- The encoding-detection cascade of `FileState::load_file`
(`src/file_ops.rs:38-62`), after the size check: UTF-16 LE BOM, UTF-16 BE
BOM, UTF-8 BOM (lossy), strict UTF-8, Latin-1 fallback. -/
def detect_decode (bytes : List Nat) : Except String (List Nat × String) :=
  if [0xFF, 0xFE].isPrefixOf bytes then
    (decode_utf16_le (bytes.drop 2)).map (fun t => (t, "UTF-16 LE"))
  else if [0xFE, 0xFF].isPrefixOf bytes then
    (decode_utf16_be (bytes.drop 2)).map (fun t => (t, "UTF-16 BE"))
  else if [0xEF, 0xBB, 0xBF].isPrefixOf bytes then
    .ok (utf8_lossy (bytes.drop 3), "UTF-8")
  else
    match utf8_decode bytes with
    | some t => .ok (t, "UTF-8")
    | none => .ok (decode_latin1 bytes, "Latin1")

/-- `FileState::load_file` (`src/file_ops.rs:27-69`) after the filesystem
read: the 60,000-byte size check, then encoding detection. The returned
tag is what the source stores into `FileState.encoding`. -/
def load_file (bytes : List Nat) : Except String (List Nat × String) :=
  if bytes.length > 60000 then
    .error "File is too large. Nodepat can only handle files up to ~58KB."
  else detect_decode bytes

/-- `FileState::save_file`'s byte production (`src/file_ops.rs:90-104`),
dispatching on the stored encoding tag. -/
def save_bytes (encoding : String) (content : List Nat) : List Nat :=
  if encoding = "UTF-16 LE" then [0xFF, 0xFE] ++ encode_utf16_le content
  else if encoding = "UTF-16 BE" then [0xFE, 0xFF] ++ encode_utf16_be content
  else if encoding = "ANSI" ∨ encoding = "Latin1" then encode_latin1 content
  else encode_utf8 content

/-! ## UTF-16 round-trip lemmas -/

/-- Every code unit of a scalar's UTF-16 encoding fits in 16 bits. -/
theorem utf16_units_lt {c : Nat} (hc : ValidChar c) :
    ∀ u ∈ utf16_units c, u < 0x10000 := by
  obtain ⟨h1, h2⟩ := hc
  intro u hu
  rw [utf16_units] at hu
  split_ifs at hu with hlt
  · simp only [List.mem_singleton] at hu
    omega
  · simp only [List.mem_cons, List.mem_singleton, List.not_mem_nil,
      or_false] at hu
    rcases hu with h | h <;> omega

/-- Little-endian byte pairs re-chunk to the original 16-bit units. -/
theorem bytes_to_u16_le_flat :
    ∀ (us : List Nat), (∀ u ∈ us, u < 0x10000) → ∀ (bs : List Nat),
      bytes_to_u16_le (us.flatMap (fun u => [u % 256, u / 256 % 256]) ++ bs)
        = us ++ bytes_to_u16_le bs := by
  intro us
  induction us with
  | nil => intro _ bs; simp
  | cons u us ih =>
      intro h bs
      have hu : u < 0x10000 := h u (by simp)
      simp only [List.flatMap_cons, List.cons_append, List.append_assoc,
        List.nil_append]
      rw [bytes_to_u16_le]
      rw [ih (fun v hv => h v (by simp [hv])) bs]
      congr 1
      omega

/-- Big-endian byte pairs re-chunk to the original 16-bit units. -/
theorem bytes_to_u16_be_flat :
    ∀ (us : List Nat), (∀ u ∈ us, u < 0x10000) → ∀ (bs : List Nat),
      bytes_to_u16_be (us.flatMap (fun u => [u / 256 % 256, u % 256]) ++ bs)
        = us ++ bytes_to_u16_be bs := by
  intro us
  induction us with
  | nil => intro _ bs; simp
  | cons u us ih =>
      intro h bs
      have hu : u < 0x10000 := h u (by simp)
      simp only [List.flatMap_cons, List.cons_append, List.append_assoc,
        List.nil_append]
      rw [bytes_to_u16_be]
      rw [ih (fun v hv => h v (by simp [hv])) bs]
      congr 1
      omega

/-- `from_utf16` undoes `encode_utf16` one scalar at a time. -/
theorem utf16_decode_append {c : Nat} (hc : ValidChar c) (us : List Nat) :
    utf16_decode (utf16_units c ++ us) = (utf16_decode us).map (c :: ·) := by
  obtain ⟨h1, h2⟩ := hc
  rw [utf16_units]
  split_ifs with hlt
  · simp only [List.cons_append, List.nil_append]
    cases us with
    | nil =>
        rw [utf16_decode.eq_3, if_pos h2]
    | cons v rest =>
        rw [utf16_decode.eq_2, if_pos h2]
  · simp only [List.cons_append, List.nil_append]
    rw [utf16_decode.eq_2]
    rw [if_neg (by omega), if_pos (by omega), if_pos (by omega)]
    have hv : 0x10000 + (0xD800 + (c - 0x10000) / 0x400 - 0xD800) * 0x400
        + (0xDC00 + (c - 0x10000) % 0x400 - 0xDC00) = c := by
      omega
    rw [hv]

/-- `from_utf16` decodes the whole unit stream of a valid text. -/
theorem utf16_decode_flat : ∀ (t : List Nat), ValidText t →
    utf16_decode (t.flatMap utf16_units) = some t := by
  intro t
  induction t with
  | nil => intro _; simp [utf16_decode]
  | cons c t ih =>
      intro h
      rw [List.flatMap_cons, utf16_decode_append (h c (by simp)),
        ih (fun x hx => h x (by simp [hx]))]
      rfl

/-- A flat list of byte pairs has even length. -/
theorem length_flatMap_pair (f : Nat → List Nat) (hf : ∀ u, (f u).length = 2) :
    ∀ (us : List Nat), (us.flatMap f).length = 2 * us.length := by
  intro us
  induction us with
  | nil => simp
  | cons u us ih =>
      simp only [List.flatMap_cons, List.length_append, ih, hf,
        List.length_cons]
      omega

/-- The UTF-16 LE encoder is the unit expansion followed by byte
splitting. -/
theorem encode_utf16_le_eq (t : List Nat) :
    encode_utf16_le t
      = (t.flatMap utf16_units).flatMap (fun u => [u % 256, u / 256 % 256]) :=
  (List.flatMap_assoc t utf16_units _).symm

/-- The UTF-16 BE encoder, likewise. -/
theorem encode_utf16_be_eq (t : List Nat) :
    encode_utf16_be t
      = (t.flatMap utf16_units).flatMap (fun u => [u / 256 % 256, u % 256]) :=
  (List.flatMap_assoc t utf16_units _).symm

/-- All code units of a valid text's unit stream are 16-bit. -/
theorem units_lt_of_valid {t : List Nat} (ht : ValidText t) :
    ∀ u ∈ t.flatMap utf16_units, u < 0x10000 := by
  intro u hu
  rw [List.mem_flatMap] at hu
  obtain ⟨c, hc, hu⟩ := hu
  exact utf16_units_lt (ht c hc) u hu

/-- Decoding undoes LE encoding for every valid text. -/
theorem decode_utf16_le_round (t : List Nat) (ht : ValidText t) :
    decode_utf16_le (encode_utf16_le t) = .ok t := by
  rw [decode_utf16_le, encode_utf16_le_eq]
  rw [length_flatMap_pair (fun u => [u % 256, u / 256 % 256]) (fun u => rfl)]
  rw [if_neg (by omega)]
  have hb := bytes_to_u16_le_flat (t.flatMap utf16_units)
    (units_lt_of_valid ht) []
  simp only [List.append_nil] at hb
  rw [hb]
  simp only [bytes_to_u16_le, List.append_nil]
  rw [utf16_decode_flat t ht]

/-- Decoding undoes BE encoding for every valid text. -/
theorem decode_utf16_be_round (t : List Nat) (ht : ValidText t) :
    decode_utf16_be (encode_utf16_be t) = .ok t := by
  rw [decode_utf16_be, encode_utf16_be_eq]
  rw [length_flatMap_pair (fun u => [u / 256 % 256, u % 256]) (fun u => rfl)]
  rw [if_neg (by omega)]
  have hb := bytes_to_u16_be_flat (t.flatMap utf16_units)
    (units_lt_of_valid ht) []
  simp only [List.append_nil] at hb
  rw [hb]
  simp only [bytes_to_u16_be, List.append_nil]
  rw [utf16_decode_flat t ht]

/-- C10: the Latin-1 byte-to-text-to-byte round trip is the identity on
arbitrary byte sequences; a file loaded as Latin1 and saved unmodified is
byte-identical. -/
theorem latin1_round_trip (bs : List Nat) (h : ∀ b ∈ bs, b < 256) :
    encode_latin1 (decode_latin1 bs) = bs := by
  induction bs with
  | nil => rfl
  | cons b rest ih =>
      have hb : b < 256 := h b (by simp)
      simp only [decode_latin1, encode_latin1, List.map_cons] at ih ⊢
      rw [if_pos (by omega : b ≤ 0xFF)]
      rw [ih (fun v hv => h v (by simp [hv]))]

/-- Witness for C10 on the bytes `[0, 65, 255]`. -/
theorem latin1_round_trip_witness :
    (∀ b ∈ [0, 65, 255], b < 256) ∧
    encode_latin1 (decode_latin1 [0, 65, 255]) = [0, 65, 255] :=
  ⟨by decide, latin1_round_trip [0, 65, 255] (by decide)⟩

/-! ## UTF-8 round-trip lemmas -/

/-- Unfolding `utf8_decode` over a successful step. -/
theorem utf8_decode_cons {b : Nat} {rest : List Nat} {c : Nat}
    {rest' : List Nat} (h : utf8_step b rest = some (c, rest')) :
    utf8_decode (b :: rest) = (utf8_decode rest').map (c :: ·) := by
  rw [utf8_decode]
  split
  · rename_i c2 rest2 heq
    rw [heq] at h
    simp only [Option.some.injEq, Prod.mk.injEq] at h
    rw [h.1, h.2]
  · rename_i heq
    rw [heq] at h
    exact Option.noConfusion h

/-- The UTF-8 bytes of a valid scalar start with a lead byte below `0xF5`
and validate back to the scalar in one step. -/
theorem utf8_step_of_bytes (c : Nat) (hc : ValidChar c) (rest : List Nat) :
    ∃ b bs, utf8_bytes c = b :: bs ∧ b < 0xF5 ∧
      utf8_step b (bs ++ rest) = some (c, rest) := by
  obtain ⟨h1, h2⟩ := hc
  by_cases k1 : c < 0x80
  · refine ⟨c, [], by rw [utf8_bytes, if_pos k1], by omega, ?_⟩
    rw [utf8_step.eq_def]
    rw [if_pos k1]
    simp
  · by_cases k2 : c < 0x800
    · refine ⟨0xC0 + c / 64, [0x80 + c % 64],
        by rw [utf8_bytes, if_neg k1, if_pos k2], by omega, ?_⟩
      rw [utf8_step.eq_def]
      simp only [List.cons_append, List.nil_append]
      rw [if_neg (by omega), if_neg (by omega), if_pos (by omega)]
      rw [if_pos (by omega)]
      have hv : (0xC0 + c / 64 - 0xC0) * 64 + (0x80 + c % 64 - 0x80) = c := by
        omega
      rw [hv]
    · by_cases k3 : c < 0x10000
      · refine ⟨0xE0 + c / 4096, [0x80 + c / 64 % 64, 0x80 + c % 64],
          by rw [utf8_bytes, if_neg k1, if_neg k2, if_pos k3], by omega, ?_⟩
        rw [utf8_step.eq_def]
        simp only [List.cons_append, List.nil_append]
        rw [if_neg (by omega), if_neg (by omega), if_neg (by omega),
          if_pos (by omega)]
        rw [if_pos (by omega)]
        have hv : (0xE0 + c / 4096 - 0xE0) * 4096
            + (0x80 + c / 64 % 64 - 0x80) * 64 + (0x80 + c % 64 - 0x80) = c := by
          omega
        rw [hv]
      · refine ⟨0xF0 + c / 0x40000,
          [0x80 + c / 4096 % 64, 0x80 + c / 64 % 64, 0x80 + c % 64],
          by rw [utf8_bytes, if_neg k1, if_neg k2, if_neg k3], by omega, ?_⟩
        rw [utf8_step.eq_def]
        simp only [List.cons_append, List.nil_append]
        rw [if_neg (by omega), if_neg (by omega), if_neg (by omega),
          if_neg (by omega), if_pos (by omega)]
        rw [if_pos (by omega)]
        have hv : (0xF0 + c / 0x40000 - 0xF0) * 0x40000
            + (0x80 + c / 4096 % 64 - 0x80) * 4096
            + (0x80 + c / 64 % 64 - 0x80) * 64 + (0x80 + c % 64 - 0x80) = c := by
          omega
        rw [hv]

/-- Strict UTF-8 decoding undoes the encoding one scalar at a time. -/
theorem utf8_decode_append (c : Nat) (hc : ValidChar c) (rest : List Nat) :
    utf8_decode (utf8_bytes c ++ rest) = (utf8_decode rest).map (c :: ·) := by
  obtain ⟨b, bs, hb, _, hstep⟩ := utf8_step_of_bytes c hc rest
  rw [hb, List.cons_append, utf8_decode_cons hstep]

/-- C1 helper: strict UTF-8 decoding undoes the encoding of every valid
text. -/
theorem utf8_decode_round : ∀ (t : List Nat), ValidText t →
    utf8_decode (encode_utf8 t) = some t := by
  intro t
  induction t with
  | nil =>
      intro _
      rw [show encode_utf8 [] = ([] : List Nat) from rfl, utf8_decode]
  | cons c t ih =>
      intro h
      rw [encode_utf8, List.flatMap_cons]
      rw [utf8_decode_append c (h c (by simp))]
      rw [show t.flatMap utf8_bytes = encode_utf8 t from rfl]
      rw [ih (fun x hx => h x (by simp [hx]))]
      rfl

/-! ## BOM-detection lemmas -/

/-- A list is a prefix of itself followed by anything. -/
theorem isPrefixOf_append_self (xs l : List Nat) :
    xs.isPrefixOf (xs ++ l) = true := by
  induction xs with
  | nil => simp [List.isPrefixOf]
  | cons x xs ih => simp [List.isPrefixOf, ih]

/-- Lists with different heads are not prefixes of one another. -/
theorem isPrefixOf_cons_ne {x y : Nat} (hxy : x ≠ y) (xs ys : List Nat) :
    (x :: xs).isPrefixOf (y :: ys) = false := by
  simp [List.isPrefixOf, hxy]

/-- A three-byte pattern fails as a prefix when some byte differs. -/
theorem isPrefixOf3_eq_false {p1 p2 p3 y1 y2 y3 : Nat} {l : List Nat}
    (h : ¬(p1 = y1 ∧ p2 = y2 ∧ p3 = y3)) :
    ([p1, p2, p3] : List Nat).isPrefixOf (y1 :: y2 :: y3 :: l) = false := by
  simp [List.isPrefixOf]
  tauto

/-- The UTF-8 encoding of a valid text never starts with a UTF-16 BOM,
and starts with the UTF-8 BOM `EF BB BF` only when the text's first
scalar is `U+FEFF` (whose encoding is exactly that byte sequence). -/
theorem encode_utf8_bom_free (t : List Nat) (ht : ValidText t) :
    [0xFF, 0xFE].isPrefixOf (encode_utf8 t) = false ∧
    [0xFE, 0xFF].isPrefixOf (encode_utf8 t) = false ∧
    (t.head? ≠ some 0xFEFF →
      [0xEF, 0xBB, 0xBF].isPrefixOf (encode_utf8 t) = false) := by
  cases t with
  | nil => exact ⟨rfl, rfl, fun _ => rfl⟩
  | cons c t' =>
      obtain ⟨hlt, hsur⟩ := ht c (by simp)
      rw [encode_utf8, List.flatMap_cons]
      by_cases k1 : c < 0x80
      · rw [utf8_bytes, if_pos k1]
        simp only [List.cons_append, List.nil_append]
        exact ⟨isPrefixOf_cons_ne (by omega) _ _,
          isPrefixOf_cons_ne (by omega) _ _,
          fun _ => isPrefixOf_cons_ne (by omega) _ _⟩
      · by_cases k2 : c < 0x800
        · rw [utf8_bytes, if_neg k1, if_pos k2]
          simp only [List.cons_append, List.nil_append]
          exact ⟨isPrefixOf_cons_ne (by omega) _ _,
            isPrefixOf_cons_ne (by omega) _ _,
            fun _ => isPrefixOf_cons_ne (by omega) _ _⟩
        · by_cases k3 : c < 0x10000
          · rw [utf8_bytes, if_neg k1, if_neg k2, if_pos k3]
            simp only [List.cons_append, List.nil_append]
            refine ⟨isPrefixOf_cons_ne (by omega) _ _,
              isPrefixOf_cons_ne (by omega) _ _, fun hhead => ?_⟩
            have hcne : c ≠ 0xFEFF := by
              intro hEq
              exact hhead (by rw [hEq]; rfl)
            exact isPrefixOf3_eq_false (by omega)
          · rw [utf8_bytes, if_neg k1, if_neg k2, if_neg k3]
            simp only [List.cons_append, List.nil_append]
            exact ⟨isPrefixOf_cons_ne (by omega) _ _,
              isPrefixOf_cons_ne (by omega) _ _,
              fun _ => isPrefixOf_cons_ne (by omega) _ _⟩

/-- C1 (amended): `Decode(Encode(t, e)) = (t, e)` holds for `UTF-16 LE`
and `UTF-16 BE` for every valid text, and for `UTF-8` for every valid
text that does not begin with `U+FEFF` — a leading `U+FEFF` encodes to
the bytes `EF BB BF`, which the detection cascade strips as a UTF-8 BOM. -/
theorem encode_decode_round_trip :
    (∀ t, ValidText t →
      detect_decode (save_bytes "UTF-16 LE" t) = .ok (t, "UTF-16 LE")) ∧
    (∀ t, ValidText t →
      detect_decode (save_bytes "UTF-16 BE" t) = .ok (t, "UTF-16 BE")) ∧
    (∀ t, ValidText t → t.head? ≠ some 0xFEFF →
      detect_decode (save_bytes "UTF-8" t) = .ok (t, "UTF-8")) := by
  refine ⟨fun t ht => ?_, fun t ht => ?_, fun t ht hh => ?_⟩
  · rw [save_bytes, if_pos rfl]
    rw [detect_decode, if_pos (isPrefixOf_append_self [0xFF, 0xFE] _)]
    rw [show ((2 : Nat) = ([0xFF, 0xFE] : List Nat).length) from rfl,
      List.drop_left]
    rw [decode_utf16_le_round t ht]
    rfl
  · rw [save_bytes, if_neg (by decide), if_pos rfl]
    have hp : ([0xFF, 0xFE] : List Nat).isPrefixOf
        ([0xFE, 0xFF] ++ encode_utf16_be t) = false :=
      isPrefixOf_cons_ne (by omega) _ _
    rw [detect_decode]
    rw [hp]
    rw [if_neg (by simp)]
    rw [if_pos (isPrefixOf_append_self [0xFE, 0xFF] _)]
    rw [show ((2 : Nat) = ([0xFE, 0xFF] : List Nat).length) from rfl,
      List.drop_left]
    rw [decode_utf16_be_round t ht]
    rfl
  · rw [save_bytes, if_neg (by decide), if_neg (by decide),
      if_neg (by decide)]
    obtain ⟨hff, hfe, hef⟩ := encode_utf8_bom_free t ht
    rw [detect_decode]
    rw [hff, hfe, hef hh]
    simp only [Bool.false_eq_true, if_false]
    rw [utf8_decode_round t ht]

/-- C1 counterexample: the text consisting of the single scalar `U+FEFF`
(a valid Unicode text) UTF-8-encodes to `EF BB BF`; reloading strips
those bytes as a BOM and returns the empty text, not the original. -/
theorem encode_decode_round_trip_counterexample :
    detect_decode (save_bytes "UTF-8" [0xFEFF]) = .ok ([], "UTF-8") ∧
    detect_decode (save_bytes "UTF-8" [0xFEFF]) ≠ .ok ([0xFEFF], "UTF-8") := by
  have hsave : save_bytes "UTF-8" [0xFEFF] = [0xEF, 0xBB, 0xBF] := by
    rw [save_bytes, if_neg (by decide), if_neg (by decide),
      if_neg (by decide)]
    rfl
  have hdec : detect_decode [0xEF, 0xBB, 0xBF] = .ok ([], "UTF-8") := by
    rw [detect_decode, if_neg (by decide), if_neg (by decide),
      if_pos (by decide)]
    rw [show ([0xEF, 0xBB, 0xBF] : List Nat).drop 3 = [] from rfl, utf8_lossy]
  rw [hsave, hdec]
  exact ⟨rfl, by simp⟩

/-! ## Decode error characterization -/

/-- A two-byte pattern is a prefix exactly of lists starting with those
two bytes. -/
theorem isPrefixOf2_iff {x y : Nat} {l : List Nat} :
    ([x, y] : List Nat).isPrefixOf l = true ↔ ∃ rest, l = x :: y :: rest := by
  cases l with
  | nil => simp [List.isPrefixOf]
  | cons a tl =>
      cases tl with
      | nil => simp [List.isPrefixOf]
      | cons b rest =>
          constructor
          · intro h
            simp only [List.isPrefixOf, Bool.and_eq_true, beq_iff_eq] at h
            exact ⟨rest, by rw [h.1, h.2.1]⟩
          · rintro ⟨r, hr⟩
            injection hr with h1 hr2
            injection hr2 with h2 h3
            subst h1
            subst h2
            simp [List.isPrefixOf]

/-- `decode_utf16_le` fails exactly on odd byte counts or invalid
code-unit sequences. -/
theorem decode_utf16_le_error_iff (l : List Nat) :
    (∃ e, decode_utf16_le l = .error e) ↔
      (l.length % 2 ≠ 0 ∨ utf16_decode (bytes_to_u16_le l) = none) := by
  rw [decode_utf16_le]
  split_ifs with hodd
  · exact ⟨fun _ => Or.inl hodd, fun _ => ⟨_, rfl⟩⟩
  · cases hu : utf16_decode (bytes_to_u16_le l) with
    | some t =>
        constructor
        · rintro ⟨e, he⟩
          exact Except.noConfusion he
        · rintro (h | h)
          · exact absurd h hodd
          · exact Option.noConfusion h
    | none => exact ⟨fun _ => Or.inr rfl, fun _ => ⟨_, rfl⟩⟩

/-- `decode_utf16_be` likewise. -/
theorem decode_utf16_be_error_iff (l : List Nat) :
    (∃ e, decode_utf16_be l = .error e) ↔
      (l.length % 2 ≠ 0 ∨ utf16_decode (bytes_to_u16_be l) = none) := by
  rw [decode_utf16_be]
  split_ifs with hodd
  · exact ⟨fun _ => Or.inl hodd, fun _ => ⟨_, rfl⟩⟩
  · cases hu : utf16_decode (bytes_to_u16_be l) with
    | some t =>
        constructor
        · rintro ⟨e, he⟩
          exact Except.noConfusion he
        · rintro (h | h)
          · exact absurd h hodd
          · exact Option.noConfusion h
    | none => exact ⟨fun _ => Or.inr rfl, fun _ => ⟨_, rfl⟩⟩

/-- `Except.map` preserves the error cases. -/
theorem except_map_error_iff {α β : Type} (f : α → β) (r : Except String α) :
    (∃ e, r.map f = .error e) ↔ (∃ e, r = .error e) := by
  cases r with
  | error e => exact ⟨fun _ => ⟨e, rfl⟩, fun _ => ⟨e, rfl⟩⟩
  | ok a =>
      constructor
      · rintro ⟨e, he⟩
        exact Except.noConfusion he
      · rintro ⟨e, he⟩
        exact Except.noConfusion he

/-- Without a UTF-16 BOM the cascade always succeeds: lossy UTF-8 after
a UTF-8 BOM, otherwise strict UTF-8 with Latin-1 fallback. -/
theorem detect_decode_ok_no_bom (bytes : List Nat)
    (h1 : ¬[0xFF, 0xFE].isPrefixOf bytes = true)
    (h2 : ¬[0xFE, 0xFF].isPrefixOf bytes = true) :
    ∃ r, detect_decode bytes = .ok r := by
  rw [detect_decode, if_neg h1, if_neg h2]
  by_cases h3 : [0xEF, 0xBB, 0xBF].isPrefixOf bytes
  · rw [if_pos h3]
    exact ⟨_, rfl⟩
  · rw [if_neg h3]
    cases hu : utf8_decode bytes with
    | some t => exact ⟨(t, "UTF-8"), rfl⟩
    | none => exact ⟨(decode_latin1 bytes, "Latin1"), rfl⟩

/-- C5: the detection cascade returns an error if and only if the input
starts with a UTF-16 BOM (`FF FE` or `FE FF`) and the remaining bytes
have odd length or form an invalid UTF-16 code-unit sequence; every
input without a UTF-16 BOM decodes successfully (strict UTF-8 when
valid, lossy UTF-8 after a UTF-8 BOM, Latin-1 fallback otherwise). -/
theorem detect_decode_error_iff (bytes : List Nat) :
    (∃ e, detect_decode bytes = .error e) ↔
      (([0xFF, 0xFE].isPrefixOf bytes = true ∧
          ((bytes.drop 2).length % 2 ≠ 0 ∨
            utf16_decode (bytes_to_u16_le (bytes.drop 2)) = none)) ∨
        ([0xFE, 0xFF].isPrefixOf bytes = true ∧
          ((bytes.drop 2).length % 2 ≠ 0 ∨
            utf16_decode (bytes_to_u16_be (bytes.drop 2)) = none))) := by
  by_cases hLE : [0xFF, 0xFE].isPrefixOf bytes = true
  · obtain ⟨rest, hrest⟩ := isPrefixOf2_iff.mp hLE
    have hBE : [0xFE, 0xFF].isPrefixOf bytes = false := by
      rw [hrest]
      exact isPrefixOf_cons_ne (by omega) _ _
    rw [detect_decode, if_pos hLE]
    rw [except_map_error_iff, decode_utf16_le_error_iff]
    simp [hLE, hBE]
  · by_cases hBE : [0xFE, 0xFF].isPrefixOf bytes = true
    · rw [detect_decode]
      rw [if_neg hLE, if_pos hBE]
      rw [except_map_error_iff, decode_utf16_be_error_iff]
      simp [hLE, hBE]
    · obtain ⟨r, hr⟩ := detect_decode_ok_no_bom bytes hLE hBE
      constructor
      · rintro ⟨e, he⟩
        rw [hr] at he
        exact Except.noConfusion he
      · rintro (⟨h, -⟩ | ⟨h, -⟩)
        · exact absurd h hLE
        · exact absurd h hBE

/-! ## File-size cap -/

/-- C7 (amended): `load_file` rejects any input longer than 60,000 bytes
with `FileTooLarge` before any decoding (in particular at exactly 60,001
bytes), and leaves inputs of at most 60,000 bytes entirely to the
detection cascade — so a 60,000-byte file passes the size check, and
succeeds whenever its content decodes (always, unless it carries a UTF-16
BOM with an odd or invalid payload). -/
theorem load_file_size_check :
    (∀ bytes : List Nat, bytes.length > 60000 →
      load_file bytes
        = .error "File is too large. Nodepat can only handle files up to ~58KB.") ∧
    (∀ bytes : List Nat, bytes.length = 60001 →
      load_file bytes
        = .error "File is too large. Nodepat can only handle files up to ~58KB.") ∧
    (∀ bytes : List Nat, bytes.length ≤ 60000 →
      load_file bytes = detect_decode bytes) ∧
    (∀ bytes : List Nat, bytes.length = 60000 →
      ¬[0xFF, 0xFE].isPrefixOf bytes = true →
      ¬[0xFE, 0xFF].isPrefixOf bytes = true →
      ∃ r, load_file bytes = .ok r) := by
  refine ⟨fun bytes h => ?_, fun bytes h => ?_, fun bytes h => ?_,
    fun bytes h hLE hBE => ?_⟩
  · rw [load_file, if_pos h]
  · rw [load_file, if_pos (by omega)]
  · rw [load_file, if_neg (by omega)]
  · obtain ⟨r, hr⟩ := detect_decode_ok_no_bom bytes hLE hBE
    exact ⟨r, by rw [load_file, if_neg (by omega), hr]⟩

/-- Witness for C7's amended theorem: 60,001 zero bytes are rejected,
60,000 zero bytes load (as Latin1/UTF-8 content). -/
theorem load_file_size_check_witness :
    ((List.replicate 60001 (0 : Nat)).length = 60001 ∧
      load_file (List.replicate 60001 (0 : Nat))
        = .error "File is too large. Nodepat can only handle files up to ~58KB.") ∧
    ((List.replicate 60000 (0 : Nat)).length = 60000 ∧
      ∃ r, load_file (List.replicate 60000 (0 : Nat)) = .ok r) := by
  have h1 : (List.replicate 60001 (0 : Nat)).length = 60001 :=
    List.length_replicate 60001 0
  have h2 : (List.replicate 60000 (0 : Nat)).length = 60000 :=
    List.length_replicate 60000 0
  have hpre : ∀ x y : Nat, ¬x = 0 →
      ¬([x, y] : List Nat).isPrefixOf (List.replicate 60000 (0 : Nat)) = true := by
    intro x y hx hp
    obtain ⟨rest, hr⟩ := isPrefixOf2_iff.mp hp
    have hmem : x ∈ List.replicate 60000 (0 : Nat) := by
      rw [hr]
      exact List.mem_cons_self x _
    exact hx (List.eq_of_mem_replicate hmem)
  exact ⟨⟨h1, (load_file_size_check.2.1) _ h1⟩,
    ⟨h2, (load_file_size_check.2.2.2) _ h2
      (hpre 0xFF 0xFE (by omega)) (hpre 0xFE 0xFF (by omega))⟩⟩

/-- C7 counterexample: a 60,000-byte file — `FF FE` BOM, then the
little-endian unpaired high surrogate `D800`, then 59,996 zero bytes —
passes the size check but fails decoding with `InvalidEncoding`, so not
every 60,000-byte file loads successfully. -/
theorem load_file_60000_invalid :
    ((0xFF : Nat) :: 0xFE :: 0x00 :: 0xD8 :: List.replicate 59996 0).length
      = 60000 ∧
    load_file ((0xFF : Nat) :: 0xFE :: 0x00 :: 0xD8 :: List.replicate 59996 0)
      = .error "Invalid UTF-16 LE: invalid sequence" := by
  have hlen : ((0xFF : Nat) :: 0xFE :: 0x00 :: 0xD8
      :: List.replicate 59996 0).length = 60000 := by
    rw [List.length_cons, List.length_cons, List.length_cons,
      List.length_cons, List.length_replicate]
  refine ⟨hlen, ?_⟩
  rw [load_file, if_neg (by rw [hlen]; omega)]
  rw [detect_decode, if_pos (isPrefixOf2_iff.mpr ⟨_, rfl⟩)]
  rw [show ((0xFF : Nat) :: 0xFE :: 0x00 :: 0xD8
      :: List.replicate 59996 0).drop 2
    = (0x00 : Nat) :: 0xD8 :: List.replicate 59996 0 from rfl]
  rw [decode_utf16_le, if_neg (by
    rw [List.length_cons, List.length_cons, List.length_replicate]
    omega)]
  rw [show List.replicate 59996 (0 : Nat)
      = 0 :: 0 :: List.replicate 59994 0 by
    rw [show (59996 : Nat) = 59995 + 1 from rfl, List.replicate_succ,
      show (59995 : Nat) = 59994 + 1 from rfl, List.replicate_succ]]
  rw [show bytes_to_u16_le ((0x00 : Nat) :: 0xD8 :: 0 :: 0
      :: List.replicate 59994 0)
    = 0xD800 :: 0x0000 :: bytes_to_u16_le (List.replicate 59994 0) by
      rw [bytes_to_u16_le, bytes_to_u16_le]]
  rw [show utf16_decode ((0xD800 : Nat) :: 0x0000
      :: bytes_to_u16_le (List.replicate 59994 0)) = none by
    rw [utf16_decode.eq_2, if_neg (by omega), if_pos (by omega),
      if_neg (by omega)]]
  rfl

end Nodepat
